import Mathlib

/-!
Verification of the orthologous-cluster membership comparison pipeline of
`Scripts/og_membership_test.py` (repository OrthoBenchmark).

The script is a sequential batch pipeline: it loads four cluster mappings
(cluster id → ordered list of member protein ids), builds a protein-id →
four-slot membership record index, filters it, compares cluster member
lists pairwise with `difflib.SequenceMatcher().ratio()`, averages the
per-pair score lists, applies a percent threshold, and writes a plain-text
report.

Python dictionaries are modelled as association lists kept in insertion
order (lookup takes the first matching key, as for a dict whose keys are
unique); fallible operations (`KeyError`, `IndexError`,
`statistics.StatisticsError`) are modelled with `Option`; Python floats are
modelled as rationals.
-/

namespace OgMembership

/-- A Python dict with string keys, as an association list in insertion
order. -/
abbrev Dict (α : Type) : Type := List (String × α)

/-- Lookup `d[k]` for a Python dict: the value stored under `k`, if any. -/
def dictGet {α : Type} (d : Dict α) (k : String) : Option α :=
  (d.find? (fun kv => kv.1 == k)).map (·.2)

/-- The sentinel slot value used for "not clustered by this program"
(`"-"` in the script). -/
def sentinel : String := "-"

/-! ### Index Filter (`filter_prot_dict`, og_membership_test.py lines 462-508) -/

/-- Python `len(set(prot_dict[key]))` of the source: the number of distinct
slot values in a record. -/
def distinctCount (r : List String) : Nat :=
  r.dedup.length

/-- The first pass of `filter_prot_dict`: the `remove_list` of keys whose
value list has exactly two distinct entries (`len(prot_OG_test) == 2`). -/
def removeList (d : Dict (List String)) : List String :=
  (d.filter (fun kv => distinctCount kv.2 == 2)).map (·.1)

/-- Function `filter_prot_dict` of og_membership_test.py: keeps exactly the entries
whose key was not collected in `remove_list`. -/
def filter_prot_dict (d : Dict (List String)) : Dict (List String) :=
  d.filter (fun kv => !(removeList d).contains kv.1)

/-- The quantity the specification's Index Filter is described by: the
number of non-sentinel slots of a membership record. -/
def nonSentinelCount (r : List String) : Nat :=
  (r.filter (fun s => s != sentinel)).length

/-! ### Cluster Loader and Membership Index Builder
(`data_2_pandas` lines 311-373, `create_prot_dict` lines 377-457) -/

/-- A parsed cluster mapping: cluster id → ordered member list, in file
order (JSON object order is preserved by `json.load`). -/
abbrev Mapping : Type := Dict (List String)

/-- The rows of the per-program dataframe built by `data_2_pandas`: one
`(Query, OG)` row per member occurrence, in mapping iteration order
(`[(key, var) for (key, L) in dict.items() for var in L]`, followed by the
column swap putting `Query` first). -/
def ogRows (m : Mapping) : List (String × String) :=
  m.flatMap (fun kv => kv.2.map (fun v => (v, kv.1)))

/-- Column `df['Query'].to_list()` for a program dataframe. -/
def queries (m : Mapping) : List String :=
  (ogRows m).map (·.1)

/-- The slot `create_prot_dict` computes for one program: `"-"` unless the
protein occurs in the program's `Query` column, otherwise the OG entry of
the first dataframe row whose `Query` equals the protein
(`df.loc[df['Query'] == prot, colname].iloc[0]`). -/
def progSlot (m : Mapping) (prot : String) : String :=
  if (queries m).contains prot then
    (((ogRows m).filter (fun r => r.1 == prot)).map (·.2)).headD sentinel
  else sentinel

/-- Function `create_prot_dict`: the four query lists are concatenated and turned
into a set (Python `set` iteration order is unspecified; the set is
enumerated here as `List.dedup` of the concatenation), and each protein of
the union gets the record of its four per-program slots. -/
def create_prot_dict (m1 m2 m3 m4 : Mapping) : Dict (List String) :=
  (queries m1 ++ queries m2 ++ queries m3 ++ queries m4).dedup.map
    (fun prot => (prot, [progSlot m1 prot, progSlot m2 prot,
                         progSlot m3 prot, progSlot m4 prot]))

/-- The behaviour claim C2 attributes to the loader: the cluster id of the
last-seen cluster of the program's mapping that contains the protein
(last-write-wins). -/
def lastClusterSpec (m : Mapping) (prot : String) : Option String :=
  ((m.filter (fun kv => kv.2.contains prot)).map (·.1)).getLast?

/-- The first-seen cluster of the program's mapping that contains the
protein. -/
def firstClusterSpec (m : Mapping) (prot : String) : Option String :=
  (m.find? (fun kv => kv.2.contains prot)).map (·.1)

/-- The content of claim C7 about the Membership Index Builder, under the
proviso (forced by `c7_counterexample`) that no program uses the sentinel
`"-"` as a cluster id: the index has one record per protein id of the set
union of the four query columns, each record holds the four per-program
slots, and each slot is the sentinel exactly when the protein is absent
from that program, otherwise the id of a (first-seen) cluster of that
program containing the protein. -/
def builderSpec (m1 m2 m3 m4 : Mapping) (prot : String) : Prop :=
  ((create_prot_dict m1 m2 m3 m4).map (·.1)).Nodup ∧
  (∀ p, p ∈ (create_prot_dict m1 m2 m3 m4).map (·.1) ↔
    p ∈ queries m1 ∨ p ∈ queries m2 ∨ p ∈ queries m3 ∨ p ∈ queries m4) ∧
  (prot ∈ queries m1 ∨ prot ∈ queries m2 ∨ prot ∈ queries m3 ∨
      prot ∈ queries m4 →
    dictGet (create_prot_dict m1 m2 m3 m4) prot =
      some [progSlot m1 prot, progSlot m2 prot,
            progSlot m3 prot, progSlot m4 prot]) ∧
  ((progSlot m1 prot = sentinel ↔ prot ∉ queries m1) ∧
    (prot ∈ queries m1 → ∃ kv ∈ m1, kv.1 = progSlot m1 prot ∧ prot ∈ kv.2)) ∧
  ((progSlot m2 prot = sentinel ↔ prot ∉ queries m2) ∧
    (prot ∈ queries m2 → ∃ kv ∈ m2, kv.1 = progSlot m2 prot ∧ prot ∈ kv.2)) ∧
  ((progSlot m3 prot = sentinel ↔ prot ∉ queries m3) ∧
    (prot ∈ queries m3 → ∃ kv ∈ m3, kv.1 = progSlot m3 prot ∧ prot ∈ kv.2)) ∧
  ((progSlot m4 prot = sentinel ↔ prot ∉ queries m4) ∧
    (prot ∈ queries m4 → ∃ kv ∈ m4, kv.1 = progSlot m4 prot ∧ prot ∈ kv.2))

/-! ### Aggregator (`avg_membership_scores`, lines 686-714) -/

/-- Mean `statistics.mean` of a score list; `none` models the
`StatisticsError` raised on an empty list. -/
def statMean (l : List ℚ) : Option ℚ :=
  if l = [] then none else some (l.sum / (l.length : ℚ))

/-- Function `avg_membership_scores`: maps every pair key to the mean of its score
list in key order, aborting fatally (before writing anything) at the first
empty list. -/
def avg_membership_scores : Dict (List ℚ) → Option (Dict ℚ)
  | [] => some []
  | kv :: tl => do
      let m ← statMean kv.2
      let rest ← avg_membership_scores tl
      pure ((kv.1, m) :: rest)

/-! ### Report writer (lines 749-750 and 897-911) -/

/-- Python `key.replace("_", " ")` for the single-character pattern used by the
report writer. -/
def underscoreToSpace (s : String) : String :=
  String.mk (s.data.map (fun ch => if ch = '_' then ' ' else ch))

/-- The name of the final results file:
`args.out_name + "__" + str(args.membership_percent) + ".txt"`. -/
def membership_results (outName : String) (percent : Int) : String :=
  outName ++ "__" ++ toString percent ++ ".txt"

/-- One line of the final report body (the `str(float)` rendering of the
average score is passed in pre-rendered as `v`). -/
def reportLine (key v : String) : String :=
  "For the " ++ underscoreToSpace key ++
    " comparison, the average score value is: " ++ v ++ "\n"

/-- The single line written when the threshold dictionary is empty. -/
def thresholdTooHigh (percent : Int) : String :=
  "The given threshold value of " ++ toString percent ++
    "% is too high. No OG comparisons met this criteria."

/-- The header line written before the per-pair lines. -/
def reportHeader (percent : Int) : String :=
  "The orthologous clustering similarity comparisons that met the desired threshold value of "
    ++ toString percent ++ "% are listed below:" ++ "\n\n"

/-- The full contents of the final report file, for a given float renderer
`fmt` (Python's `str` on floats). -/
def reportContent (fmt : ℚ → String) (percent : Int) (td : Dict ℚ) : String :=
  if td = [] then thresholdTooHigh percent
  else reportHeader percent ++
    String.join (td.map (fun kv => reportLine kv.1 (fmt kv.2)))

/-- The per-pair line format asserted by claim C8: the display names appear
verbatim between "For the" and "comparison". -/
def claimLine (progA progB v : String) : String :=
  "For the " ++ progA ++ " vs " ++ progB ++
    " comparison, the average score value is: " ++ v ++ "\n"

/-! ### Threshold Filter (`threshold_test`, lines 718-743) -/

/-- Function `threshold_test`: keeps exactly the pairs whose average score is at
least `membership_decimal = float(args.membership_percent)/100`. -/
def threshold_test (percent : Int) (sd : Dict ℚ) : Dict ℚ :=
  sd.filter (fun kv => decide ((percent : ℚ) / 100 ≤ kv.2))

/-! ### difflib.SequenceMatcher, as called by `membership_test`
(`difflib.SequenceMatcher(None, list1, list2).ratio()`).  Embedded from the
CPython implementation: `__chain_b` (with the autojunk purge of popular
elements and no junk function), `find_longest_match` (the two junk
extension loops are vacuous because `bjunk` is empty when `isjunk` is
`None`), the `get_matching_blocks` queue recursion, and `ratio`. -/

/-- Ascending positions of `x` in `b`: the `b2j` entry before any purge. -/
def positions (b : List String) (x : String) : List Nat :=
  (List.range b.length).filter (fun j => b.getD j "" == x)

/-- The autojunk rule of `__chain_b`: for `len(b) >= 200`, elements seen at
more than `len(b) // 100 + 1` positions are "popular" and purged. -/
def isPopular (b : List String) (x : String) : Bool :=
  decide (200 ≤ b.length) && decide (b.length / 100 + 1 < b.count x)

/-- Table `self.b2j` after `__chain_b`. -/
def b2j (b : List String) (x : String) : List Nat :=
  if isPopular b x then [] else positions b x

/-- The `j` values processed in one row of `find_longest_match`:
`continue` skips `j < blo` and `break` stops at `j >= bhi`; since the
position list is ascending this is a filter. -/
def jRow (b : List String) (blo bhi : Nat) (x : String) : List Nat :=
  (b2j b x).filter (fun j => decide (blo ≤ j) && decide (j < bhi))

/-- The `newj2len` map built in one row of the main loop of
`find_longest_match`: `j2len.get(j-1, 0) + 1` for each processed `j` (the
missing key `-1` yields 0 at `j = 0`), absent (0) elsewhere. -/
def rowJl (jl : Nat → Nat) (J : List Nat) : Nat → Nat :=
  fun j => if j ∈ J then (if j = 0 then 0 else jl (j - 1)) + 1 else 0

/-- The `if k > bestsize: besti, bestj, bestsize = i-k+1, j-k+1, k` update
folded over the processed `j`s of row `i` in ascending order. -/
def bestFold (newjl : Nat → Nat) (i : Nat) (J : List Nat)
    (bst : Nat × Nat × Nat) : Nat × Nat × Nat :=
  J.foldl
    (fun bst j =>
      if bst.2.2 < newjl j then (i + 1 - newjl j, j + 1 - newjl j, newjl j)
      else bst) bst

/-- One row `i` of the main loop of `find_longest_match`. -/
def flmRow (a b : List String) (blo bhi : Nat)
    (st : (Nat → Nat) × (Nat × Nat × Nat)) (i : Nat) :
    (Nat → Nat) × (Nat × Nat × Nat) :=
  (rowJl st.1 (jRow b blo bhi (a.getD i "")),
   bestFold (rowJl st.1 (jRow b blo bhi (a.getD i ""))) i
     (jRow b blo bhi (a.getD i "")) st.2)

/-- The main loop of `find_longest_match` over rows `range(alo, ahi)`,
starting from `besti, bestj, bestsize = alo, blo, 0` and an empty
`j2len`. -/
def flmMain (a b : List String) (alo ahi blo bhi : Nat) : Nat × Nat × Nat :=
  ((List.range' alo (ahi - alo)).foldl (flmRow a b blo bhi)
    (fun _ => 0, (alo, blo, 0))).2

/-- The backward extension loop of `find_longest_match` (the `bjunk` test
is vacuous): how many steps the best block extends backwards over equal
elements while staying inside both ranges. -/
def extendBack (a b : List String) (alo blo : Nat) : Nat → Nat → Nat
  | i, j =>
    if h : alo < i ∧ blo < j ∧ a.getD (i - 1) "" == b.getD (j - 1) ""
    then extendBack a b alo blo (i - 1) (j - 1) + 1
    else 0
termination_by i _ => i
decreasing_by simp_wf; omega

/-- The forward extension loop of `find_longest_match`: grows `bestsize`
over equal elements while staying inside both ranges. -/
def extendFwd (a b : List String) (ahi bhi i j : Nat) : Nat → Nat
  | k =>
    if h : i + k < ahi ∧ j + k < bhi ∧ a.getD (i + k) "" == b.getD (j + k) ""
    then extendFwd a b ahi bhi i j (k + 1)
    else k
termination_by k => ahi - (i + k)
decreasing_by simp_wf; omega

/-- Function `find_longest_match(alo, ahi, blo, bhi)` with `isjunk = None`. -/
def findLongestMatch (a b : List String) (alo ahi blo bhi : Nat) :
    Nat × Nat × Nat :=
  let m := flmMain a b alo ahi blo bhi
  let t := extendBack a b alo blo m.1 m.2.1
  let bi := m.1 - t
  let bj := m.2.1 - t
  (bi, bj, extendFwd a b ahi bhi bi bj (m.2.2 + t))

/-- Total size of the matching blocks found by the `get_matching_blocks`
recursion over subranges (the LIFO queue order does not change the total,
and neither the trailing zero-length sentinel block nor the adjacent-block
merge changes the sum).  `fuel` bounds the recursion depth; since every
recursive call strictly shrinks `ahi - alo`, fuel `a.length + 1` always
suffices for the top-level call. -/
def matchesTotalF (a b : List String) :
    Nat → Nat → Nat → Nat → Nat → Nat
  | 0, _, _, _, _ => 0
  | fuel + 1, alo, ahi, blo, bhi =>
    let m := findLongestMatch a b alo ahi blo bhi
    if m.2.2 = 0 then 0
    else m.2.2 +
      (if alo < m.1 ∧ blo < m.2.1
        then matchesTotalF a b fuel alo m.1 blo m.2.1 else 0) +
      (if m.1 + m.2.2 < ahi ∧ m.2.1 + m.2.2 < bhi
        then matchesTotalF a b fuel (m.1 + m.2.2) ahi (m.2.1 + m.2.2) bhi
        else 0)

/-- Count `M`: the total number of matching elements reported by
`get_matching_blocks` for the whole of `a` and `b`. -/
def seqMatches (a b : List String) : Nat :=
  matchesTotalF a b (a.length + 1) 0 a.length 0 b.length

/-- Score `SequenceMatcher(None, a, b).ratio()`: `2.0 * M / T` with
`T = len(a) + len(b)`, and `1.0` for two empty sequences
(`_calculate_ratio`). -/
def simScore (a b : List String) : ℚ :=
  if a.length + b.length = 0 then 1
  else 2 * (seqMatches a b : ℚ) / ((a.length : ℚ) + (b.length : ℚ))

/-- Range/size invariant for the `j2len` map after processing the rows
below `e`: every stored run length fits inside the processed rows and the
`b` range. -/
def JlP (alo blo bhi e : Nat) (jl : Nat → Nat) : Prop :=
  ∀ x, jl x = 0 ∨
    (jl x + alo ≤ e ∧ jl x + blo ≤ x + 1 ∧ x < bhi ∧ blo ≤ x)

/-- Range/size invariant for the best block after processing the rows
below `e`: either still the initial `(alo, blo, 0)`, or a nonempty block
inside both ranges ending in a processed row. -/
def BestP (alo blo bhi e : Nat) (bst : Nat × Nat × Nat) : Prop :=
  bst = (alo, blo, 0) ∨
  (alo ≤ bst.1 ∧ blo ≤ bst.2.1 ∧ 1 ≤ bst.2.2 ∧
   bst.1 + bst.2.2 ≤ e ∧ bst.2.1 + bst.2.2 ≤ bhi)

/-- Closed form of the `j2len` table after processing row `r` (rows are
`0, 1, …` for a call with `alo = 0`): the length of the run of pairwise
matches ending at row `r`, column `j`. -/
def mRun (a b : List String) (blo bhi : Nat) : Nat → Nat → Nat
  | 0, j => if j ∈ jRow b blo bhi (a.getD 0 "") then 1 else 0
  | r + 1, j =>
      if j ∈ jRow b blo bhi (a.getD (r + 1) "") then
        (if j = 0 then 0 else mRun a b blo bhi r (j - 1)) + 1
      else 0

/-! ### Pairwise Comparator (`membership_test`, lines 512-682) -/

/-- The six per-pair score lists of `comparison_dict`, in insertion
order of the keys. -/
structure Comparisons where
  c12 : List ℚ
  c13 : List ℚ
  c14 : List ℚ
  c23 : List ℚ
  c24 : List ℚ
  c34 : List ℚ
deriving DecidableEq

/-- Test `filt_prot_dict[key][i] != "-" and filt_prot_dict[key][j] != "-"` with
Python's short-circuiting `and`; a missing index is an `IndexError`
(`none`). -/
def pairCond (r : List String) (i j : Nat) : Option Bool := do
  let x ← r.get? i
  if x = sentinel then pure false
  else do
    let y ← r.get? j
    pure (decide (y ≠ sentinel))

/-- One `if` block of `membership_test` for one record and one program
pair: when both slots are non-sentinel, resolve the two cluster ids in the
two cluster dictionaries (`KeyError`, i.e. `none`, when absent) and score
the two member lists, with the `SequenceMatcher` argument order the script
uses for this pair. -/
def cmpStep (r : List String) (i j : Nat) (dA : Mapping) (iA : Nat)
    (dB : Mapping) (iB : Nat) : Option (Option ℚ) := do
  let c ← pairCond r i j
  if c then do
    let sa ← r.get? iA
    let A ← dictGet dA sa
    let sb ← r.get? iB
    let B ← dictGet dB sb
    pure (some (simScore A B))
  else pure none

/-- Append a computed score to a pair's list, if the pair was comparable
for this record. -/
def pushScore (l : List ℚ) : Option ℚ → List ℚ
  | none => l
  | some q => l ++ [q]

/-- Processing of one record of `filt_prot_dict` by `membership_test`: the
six pair blocks in program order (note the argument orders: pairs 2-3 and
2-4 pass the higher-numbered program's list as the first
`SequenceMatcher` argument). -/
def recordStep (d1 d2 d3 d4 : Mapping) (acc : Comparisons)
    (kv : String × List String) : Option Comparisons := do
  let s12 ← cmpStep kv.2 0 1 d1 0 d2 1
  let s13 ← cmpStep kv.2 0 2 d1 0 d3 2
  let s14 ← cmpStep kv.2 0 3 d1 0 d4 3
  let s23 ← cmpStep kv.2 1 2 d3 2 d2 1
  let s24 ← cmpStep kv.2 1 3 d4 3 d2 1
  let s34 ← cmpStep kv.2 2 3 d3 2 d4 3
  pure ⟨pushScore acc.c12 s12, pushScore acc.c13 s13, pushScore acc.c14 s14,
        pushScore acc.c23 s23, pushScore acc.c24 s24, pushScore acc.c34 s34⟩

/-- The record loop of `membership_test`, threading `comparison_dict`;
an uncaught `KeyError`/`IndexError` aborts the run with no score-list
output. -/
def membershipFold (d1 d2 d3 d4 : Mapping) :
    Comparisons → Dict (List String) → Option Comparisons
  | acc, [] => some acc
  | acc, kv :: tl => do
      let acc' ← recordStep d1 d2 d3 d4 acc kv
      membershipFold d1 d2 d3 d4 acc' tl

/-- Function `membership_test`: all records of the filtered index in order, starting
from six empty score lists. -/
def membership_test (filt : Dict (List String)) (d1 d2 d3 d4 : Mapping) :
    Option Comparisons :=
  membershipFold d1 d2 d3 d4 ⟨[], [], [], [], [], []⟩ filt

/-- The totality precondition of the amended claim C10, for length-4
records: every slot that participates in a comparable pair (both slots of
the pair non-sentinel) resolves in its program's cluster dictionary. -/
def comparatorPre (filt : Dict (List String)) (d1 d2 d3 d4 : Mapping) :
    Prop :=
  ∀ kv ∈ filt, ∀ s0 s1 s2 s3, kv.2 = [s0, s1, s2, s3] →
    (s0 ≠ sentinel ∧ s1 ≠ sentinel →
      (dictGet d1 s0).isSome ∧ (dictGet d2 s1).isSome) ∧
    (s0 ≠ sentinel ∧ s2 ≠ sentinel →
      (dictGet d1 s0).isSome ∧ (dictGet d3 s2).isSome) ∧
    (s0 ≠ sentinel ∧ s3 ≠ sentinel →
      (dictGet d1 s0).isSome ∧ (dictGet d4 s3).isSome) ∧
    (s1 ≠ sentinel ∧ s2 ≠ sentinel →
      (dictGet d2 s1).isSome ∧ (dictGet d3 s2).isSome) ∧
    (s1 ≠ sentinel ∧ s3 ≠ sentinel →
      (dictGet d2 s1).isSome ∧ (dictGet d4 s3).isSome) ∧
    (s2 ≠ sentinel ∧ s3 ≠ sentinel →
      (dictGet d3 s2).isSome ∧ (dictGet d4 s3).isSome)

/-! ### Checkpoint Store, checkpoint 2
(`json.dump` in `create_prot_dict`, lines 447-453; resumption branch of
`main`, lines 779-822).  The spec treats JSON text I/O as an external
collaborator storing simple key→value and key→list mappings, so the
serialized form is modelled at the JSON value level. -/

/-- JSON values as exchanged through checkpoint files. -/
inductive Json where
  | str (s : String)
  | arr (xs : List Json)
  | obj (kvs : List (String × Json))

/-- Serialization `json.dump(prot_dict, …)`: the membership index as a JSON object of
arrays of strings, in insertion order. -/
def encodeProtDict (d : Dict (List String)) : Json :=
  Json.obj (d.map (fun kv => (kv.1, Json.arr (kv.2.map Json.str))))

/-- Decoding of a JSON array of strings (`json.load` shape for a record). -/
def decodeStrings : List Json → Option (List String)
  | [] => some []
  | Json.str s :: tl => (decodeStrings tl).map (fun l => s :: l)
  | _ => none

/-- Decoding of the entries of a JSON object of string arrays. -/
def decodeEntries : List (String × Json) → Option (Dict (List String))
  | [] => some []
  | (k, Json.arr xs) :: tl => do
      let v ← decodeStrings xs
      let rest ← decodeEntries tl
      pure ((k, v) :: rest)
  | _ => none

/-- Parse `json.load` of a checkpoint-2 file: a protein-id → slot-list mapping. -/
def decodeProtDict : Json → Option (Dict (List String))
  | Json.obj kvs => decodeEntries kvs
  | _ => none

/-- Dictionary `comparison_dict` as the key → score-list dictionary written at
checkpoint 4 and consumed by the Aggregator, keyed in insertion order. -/
def comparisonsToDict (names : List String) (c : Comparisons) :
    Dict (List ℚ) :=
  [(names.getD 0 "" ++ "_vs_" ++ names.getD 1 "", c.c12),
   (names.getD 0 "" ++ "_vs_" ++ names.getD 2 "", c.c13),
   (names.getD 0 "" ++ "_vs_" ++ names.getD 3 "", c.c14),
   (names.getD 1 "" ++ "_vs_" ++ names.getD 2 "", c.c23),
   (names.getD 1 "" ++ "_vs_" ++ names.getD 3 "", c.c24),
   (names.getD 2 "" ++ "_vs_" ++ names.getD 3 "", c.c34)]

/-- The stages a fresh run executes after checkpoint 2: filtration,
pairwise comparison against the four cluster dictionaries, and
aggregation. -/
def downstream2 (names : List String) (pd : Dict (List String))
    (d1 d2 d3 d4 : Mapping) :
    Dict (List String) × Option Comparisons × Option (Dict ℚ) :=
  (filter_prot_dict pd,
   membership_test (filter_prot_dict pd) d1 d2 d3 d4,
   (membership_test (filter_prot_dict pd) d1 d2 d3 d4).bind
     (fun c => avg_membership_scores (comparisonsToDict names c)))

/-- The checkpoint-2 resumption branch of `main`: load the serialized
index and the four cluster mappings, then run the same downstream
stages. -/
def checkpoint2_resume (names : List String) (j : Json)
    (d1 d2 d3 d4 : Mapping) :
    Option (Dict (List String) × Option Comparisons × Option (Dict ℚ)) :=
  (decodeProtDict j).map (fun pd => downstream2 names pd d1 d2 d3 d4)

/-! ### Theorems -/

theorem mem_removeList {d : Dict (List String)} {k : String} :
    k ∈ removeList d ↔ ∃ v, (k, v) ∈ d ∧ distinctCount v = 2 := by
  constructor
  · intro h
    rcases List.mem_map.mp h with ⟨kv, hkv, rfl⟩
    rcases List.mem_filter.mp hkv with ⟨hmem, hcnt⟩
    exact ⟨kv.2, hmem, by simpa using hcnt⟩
  · rintro ⟨v, hmem, hcnt⟩
    exact List.mem_map.mpr ⟨(k, v),
      List.mem_filter.mpr ⟨hmem, by simpa using hcnt⟩, rfl⟩

/-- C1: the Index Filter keeps a record iff it has at least two non-sentinel
slots.  This is what the script's own docstring intends ("exclude protein
queries that were only clustered by one program"), but the implemented test
(`len(set(slots)) == 2`) is a different predicate: the record
`["A", "B", "B", "B"]` has all four slots non-sentinel yet its slot set
`{A, B}` has size 2, so `filter_prot_dict` removes it. -/
theorem c1_filter_drops_record_with_four_nonsentinel_slots :
    filter_prot_dict [("p1", ["A", "B", "B", "B"])] = [] ∧
    nonSentinelCount ["A", "B", "B", "B"] = 4 := by
  constructor <;> rfl

theorem contains_false_iff (l : List String) (x : String) :
    (l.contains x = false) ↔ x ∉ l := by
  constructor
  · intro h hx
    have helem := List.elem_iff.mpr hx
    rw [show List.elem x l = l.contains x from rfl, h] at helem
    cases helem
  · intro h
    cases hc : l.contains x
    · rfl
    · exact absurd (List.elem_iff.mp hc) h

/-- C9: `filter_prot_dict` is idempotent: a second pass removes nothing,
for every input index (even one with duplicate keys). -/
theorem c9_filter_idempotent (d : Dict (List String)) :
    filter_prot_dict (filter_prot_dict d) = filter_prot_dict d := by
  apply List.filter_eq_self.mpr
  intro kv hkv
  rcases List.mem_filter.mp hkv with ⟨hmem, hkeep⟩
  rw [Bool.not_eq_true'] at hkeep ⊢
  rw [contains_false_iff] at hkeep ⊢
  intro hcontra
  rcases mem_removeList.mp hcontra with ⟨v, hv, hcnt⟩
  rcases List.mem_filter.mp hv with ⟨hvd, _⟩
  exact hkeep (mem_removeList.mpr ⟨v, hvd, hcnt⟩)

theorem contains_true_iff (l : List String) (x : String) :
    (l.contains x = true) ↔ x ∈ l :=
  List.elem_iff

theorem queries_cons (c : String) (mems : List String) (tl : Mapping) :
    queries ((c, mems) :: tl) = mems ++ queries tl := by
  show (mems.map (fun v => (v, c)) ++ ogRows tl).map (·.1) = mems ++ queries tl
  rw [List.map_append, List.map_map]
  show List.map (fun v => v) mems ++ (ogRows tl).map (·.1) = mems ++ queries tl
  rw [List.map_id']
  rfl

theorem mem_queries {m : Mapping} {prot : String} :
    prot ∈ queries m ↔ ∃ kv ∈ m, prot ∈ kv.2 := by
  induction m with
  | nil => simp [queries, ogRows]
  | cons kv tl ih =>
    rcases kv with ⟨c, mems⟩
    rw [queries_cons]
    simp only [List.mem_append, List.mem_cons, ih]
    constructor
    · rintro (h | ⟨kv', hkv', hp⟩)
      · exact ⟨(c, mems), Or.inl rfl, h⟩
      · exact ⟨kv', Or.inr hkv', hp⟩
    · rintro ⟨kv', (rfl | hkv'), hp⟩
      · exact Or.inl hp
      · exact Or.inr ⟨kv', hkv', hp⟩

theorem rows_filter_key (mems : List String) (c prot : String) :
    (mems.map (fun v => (v, c))).filter (fun r => r.1 == prot) =
      (mems.filter (fun v => v == prot)).map (fun v => (v, c)) := by
  induction mems with
  | nil => rfl
  | cons v tl ih =>
    by_cases hv : v == prot
    · simp [List.filter_cons, hv, ih]
    · simp only [List.map_cons, List.filter_cons, hv]
      simpa using ih

/-- Core loader fact shared by C2 and C7: the slot recorded for a protein
that occurs somewhere in the mapping is the id of the first-seen cluster
containing it. -/
theorem progSlot_eq_firstCluster (m : Mapping) (prot : String)
    (h : prot ∈ queries m) :
    some (progSlot m prot) = firstClusterSpec m prot := by
  induction m with
  | nil => simp [queries, ogRows] at h
  | cons kv tl ih =>
    rcases kv with ⟨c, mems⟩
    have hcont : (queries ((c, mems) :: tl)).contains prot = true :=
      (contains_true_iff _ _).mpr h
    by_cases hp : prot ∈ mems
    · have hmc : mems.contains prot = true := (contains_true_iff _ _).mpr hp
      rw [firstClusterSpec]
      rw [List.find?_cons_of_pos _ (by simpa using hmc)]
      rw [progSlot, if_pos hcont]
      show some ((((ogRows ((c, mems) :: tl)).filter
        (fun r => r.1 == prot)).map (·.2)).headD sentinel) = some c
      have hrows : ogRows ((c, mems) :: tl) =
          mems.map (fun v => (v, c)) ++ ogRows tl := rfl
      rw [hrows, List.filter_append, rows_filter_key]
      cases hfil : mems.filter (fun v => v == prot) with
      | nil =>
        exfalso
        have := List.filter_eq_nil_iff.mp hfil prot hp
        simp at this
      | cons v rest => simp
    · have hmc : mems.contains prot = false := by
        cases hc : mems.contains prot
        · rfl
        · exact absurd ((contains_true_iff _ _).mp hc) hp
      have htl : prot ∈ queries tl := by
        rw [queries_cons] at h
        rcases List.mem_append.mp h with h' | h'
        · exact absurd h' hp
        · exact h'
      rw [firstClusterSpec]
      rw [List.find?_cons_of_neg _ (by simpa using hmc)]
      rw [progSlot, if_pos hcont]
      have hrows : ogRows ((c, mems) :: tl) =
          mems.map (fun v => (v, c)) ++ ogRows tl := rfl
      rw [hrows, List.filter_append, rows_filter_key]
      have hfil : mems.filter (fun v => v == prot) = [] :=
        List.filter_eq_nil_iff.mpr (fun v hv => by
          simp only [Bool.not_eq_true, beq_eq_false_iff_ne, ne_eq]
          rintro rfl; exact hp hv)
      rw [hfil, List.map_nil, List.nil_append]
      have hthis := ih htl
      rw [progSlot, if_pos ((contains_true_iff _ _).mpr htl)] at hthis
      exact hthis

/-- C2 counterexample: the claim says the loader records the LAST-seen
cluster of a program mapping a protein twice; on
`{"C1": ["p"], "C2": ["p"]}` the index slot is `"C1"` (the first-seen
cluster, via `.iloc[0]` on the row-ordered dataframe), not the last-seen
`"C2"`. -/
theorem c2_counterexample :
    create_prot_dict [("C1", ["p"]), ("C2", ["p"])] [] [] [] =
      [("p", ["C1", "-", "-", "-"])] ∧
    lastClusterSpec [("C1", ["p"]), ("C2", ["p"])] "p" = some "C2" ∧
    ("C1" : String) ≠ "C2" := by
  refine ⟨by decide, by decide, by decide⟩

/-- C2 amended: when a protein id appears in more than one cluster of the
same program's mapping, the index-builder records the FIRST-seen cluster id
of that program (first occurrence in mapping iteration order), because the
lookup takes `.iloc[0]` of the rows matching the protein. -/
theorem c2_first_seen_cluster_wins (m : Mapping) (prot : String)
    (h : ∃ kv ∈ m, prot ∈ kv.2) :
    some (progSlot m prot) = firstClusterSpec m prot :=
  progSlot_eq_firstCluster m prot (mem_queries.mpr h)

theorem c2_first_seen_cluster_wins_witness :
    (∃ kv ∈ ([("C1", ["p"]), ("C2", ["p"])] : Mapping), "p" ∈ kv.2) ∧
    some (progSlot [("C1", ["p"]), ("C2", ["p"])] "p") =
      firstClusterSpec [("C1", ["p"]), ("C2", ["p"])] "p" :=
  ⟨by decide, c2_first_seen_cluster_wins [("C1", ["p"]), ("C2", ["p"])] "p"
    (by decide)⟩

theorem find_map_key {α : Type} (f : String → α) (prot : String)
    (l : List String) (h : prot ∈ l) :
    (l.map (fun p => (p, f p))).find? (fun kv => kv.1 == prot) =
      some (prot, f prot) := by
  induction l with
  | nil => cases h
  | cons p0 tl ih =>
    by_cases hp : p0 = prot
    · subst hp
      rw [List.map_cons, List.find?_cons_of_pos _ (by simp)]
    · have htl : prot ∈ tl := by
        rcases List.mem_cons.mp h with h1 | h1
        · exact absurd h1.symm hp
        · exact h1
      rw [List.map_cons, List.find?_cons_of_neg _ (by simpa using hp), ih htl]

theorem keys_create_prot_dict (m1 m2 m3 m4 : Mapping) :
    (create_prot_dict m1 m2 m3 m4).map (·.1) =
      (queries m1 ++ queries m2 ++ queries m3 ++ queries m4).dedup := by
  rw [create_prot_dict, List.map_map]
  exact List.map_id' _

/-- Slot characterization shared by C7: when no cluster id of the mapping
equals the sentinel, a slot is the sentinel exactly for absent proteins,
and for present proteins it holds the id of a cluster of that program that
contains the protein. -/
theorem progSlot_spec (m : Mapping) (prot : String)
    (hm : ∀ kv ∈ m, kv.1 ≠ sentinel) :
    (progSlot m prot = sentinel ↔ prot ∉ queries m) ∧
    (prot ∈ queries m → ∃ kv ∈ m, kv.1 = progSlot m prot ∧ prot ∈ kv.2) := by
  by_cases h : prot ∈ queries m
  · have hfc := progSlot_eq_firstCluster m prot h
    rw [firstClusterSpec] at hfc
    cases hfind : m.find? (fun kv => kv.2.contains prot) with
    | none => rw [hfind] at hfc; cases hfc
    | some kv =>
      rw [hfind, Option.map_some'] at hfc
      have hkv := List.mem_of_find?_eq_some hfind
      have hpkv := List.find?_some hfind
      have hslot : progSlot m prot = kv.1 := by injection hfc
      refine ⟨⟨fun hsent => ?_, fun habs => absurd h habs⟩, fun _ => ?_⟩
      · exact absurd (hslot.symm.trans hsent) (hm kv hkv)
      · exact ⟨kv, hkv, hslot.symm, (contains_true_iff _ _).mp hpkv⟩
  · have hcf : (queries m).contains prot = false := (contains_false_iff _ _).mpr h
    have hsent : progSlot m prot = sentinel := by
      simp [progSlot, hcf]
      intro hmem
      exact absurd hmem h
    exact ⟨⟨fun _ => h, fun _ => hsent⟩, fun hmem => absurd hmem h⟩

/-- C7 counterexample: claim C7 says a slot equals the sentinel exactly
when the protein is absent from that program, but a cluster file may use
`"-"` itself as a cluster id: for `{"-": ["p"]}` the protein `"p"` is
present in program 1 yet its record is all-sentinel. -/
theorem c7_counterexample :
    create_prot_dict [("-", ["p"])] [] [] [] =
      [("p", ["-", "-", "-", "-"])] ∧
    progSlot [("-", ["p"])] "p" = sentinel ∧
    "p" ∈ queries [("-", ["p"])] := by
  refine ⟨by decide, by decide, by decide⟩

/-- C7 (amended): the Membership Index Builder produces one record per
protein id in the set union of the four programs' query columns, and each
slot holds a cluster id of that program containing the protein (the
first-seen one) or the sentinel exactly when the protein is absent —
provided no cluster mapping uses the sentinel `"-"` as a cluster id. -/
theorem c7_index_builder (m1 m2 m3 m4 : Mapping) (prot : String)
    (h1 : ∀ kv ∈ m1, kv.1 ≠ sentinel) (h2 : ∀ kv ∈ m2, kv.1 ≠ sentinel)
    (h3 : ∀ kv ∈ m3, kv.1 ≠ sentinel) (h4 : ∀ kv ∈ m4, kv.1 ≠ sentinel) :
    builderSpec m1 m2 m3 m4 prot := by
  refine ⟨?_, ?_, ?_, progSlot_spec m1 prot h1, progSlot_spec m2 prot h2,
    progSlot_spec m3 prot h3, progSlot_spec m4 prot h4⟩
  · rw [keys_create_prot_dict]
    exact List.nodup_dedup _
  · intro p
    rw [keys_create_prot_dict, List.mem_dedup]
    simp [List.mem_append, or_assoc]
  · intro hin
    have hmem : prot ∈
        (queries m1 ++ queries m2 ++ queries m3 ++ queries m4).dedup := by
      rw [List.mem_dedup]
      simp only [List.mem_append]
      tauto
    rw [dictGet, create_prot_dict, find_map_key _ prot _ hmem]
    rfl

theorem c7_index_builder_witness :
    (∀ kv ∈ ([("OG1", ["p1", "p2"])] : Mapping), kv.1 ≠ sentinel) ∧
    builderSpec [("OG1", ["p1", "p2"])] [("OG2", ["p1"])] [] [] "p1" :=
  ⟨by decide,
    c7_index_builder [("OG1", ["p1", "p2"])] [("OG2", ["p1"])] [] [] "p1"
      (by decide) (by decide) (by decide) (by decide)⟩

/-- C5: the Aggregator maps each program pair to the arithmetic mean of its
score list, and aborts with a fatal error (producing no threshold output)
if and only if some pair's score list is empty. -/
theorem c5_aggregator (cd : Dict (List ℚ)) :
    (avg_membership_scores cd = none ↔ ∃ kv ∈ cd, kv.2 = []) ∧
    (∀ out, avg_membership_scores cd = some out →
      out = cd.map (fun kv => (kv.1, kv.2.sum / (kv.2.length : ℚ)))) := by
  induction cd with
  | nil =>
    refine ⟨by simp [avg_membership_scores], fun out h => ?_⟩
    simp only [avg_membership_scores] at h
    injection h with h
    simp [← h]
  | cons kv tl ih =>
    by_cases he : kv.2 = []
    · have hnone : avg_membership_scores (kv :: tl) = none := by
        simp [avg_membership_scores, statMean, he]
      refine ⟨⟨fun _ => ⟨kv, List.mem_cons_self kv tl, he⟩, fun _ => hnone⟩,
        fun out h => ?_⟩
      rw [hnone] at h
      cases h
    · have hmean : statMean kv.2 = some (kv.2.sum / (kv.2.length : ℚ)) := by
        simp [statMean, he]
      cases hav : avg_membership_scores tl with
      | none =>
        have hnone : avg_membership_scores (kv :: tl) = none := by
          simp [avg_membership_scores, hmean, hav]
        refine ⟨⟨fun _ => ?_, fun _ => hnone⟩, fun out h => ?_⟩
        · rcases ih.1.mp hav with ⟨kv', htl, hemp⟩
          exact ⟨kv', List.mem_cons_of_mem kv htl, hemp⟩
        · rw [hnone] at h
          cases h
      | some rest =>
        have hsome : avg_membership_scores (kv :: tl) =
            some ((kv.1, kv.2.sum / (kv.2.length : ℚ)) :: rest) := by
          simp [avg_membership_scores, hmean, hav]
        refine ⟨⟨fun habs => ?_, fun habs => ?_⟩, fun out h => ?_⟩
        · rw [hsome] at habs
          cases habs
        · rcases habs with ⟨kv', hmem, hemp⟩
          rcases List.mem_cons.mp hmem with rfl | htl
          · exact absurd hemp he
          · rw [ih.1.mpr ⟨kv', htl, hemp⟩] at hav
            cases hav
        · rw [hsome] at h
          injection h with h
          rw [← h, List.map_cons, ih.2 rest hav]

theorem c5_aggregator_witness :
    avg_membership_scores [("a", ([] : List ℚ))] = none :=
  (c5_aggregator [("a", [])]).1.mpr ⟨("a", []), List.mem_singleton.mpr rfl, rfl⟩

theorem uts_append (s t : String) :
    underscoreToSpace (s ++ t) = underscoreToSpace s ++ underscoreToSpace t := by
  apply String.ext
  simp [underscoreToSpace]

/-- C8 counterexample: the writer applies `key.replace("_", " ")` to the
whole pair key, so display names containing underscores — including the
default names `Program_1` … `Program_4` — do not appear verbatim in the
report line: the default pair key renders as "Program 1 vs Program 2", not
"Program_1 vs Program_2". -/
theorem c8_counterexample :
    reportLine "Program_1_vs_Program_2" "1.0" ≠
      claimLine "Program_1" "Program_2" "1.0" ∧
    reportLine "Program_1_vs_Program_2" "1.0" =
      claimLine "Program 1" "Program 2" "1.0" := by
  refine ⟨by decide, by decide⟩

/-- C8 (amended): the final report file is named
`<out_name>__<threshold_percent>.txt` and contains either the single
"threshold too high" line, or a header line followed by exactly one line
per qualifying pair of the form
"For the <A> vs <B> comparison, the average score value is: <float>" —
where the displayed names `<A>`, `<B>` are the supplied (or default)
program names with every underscore replaced by a space. -/
theorem c8_report_format (outName : String) (percent : Int) (fmt : ℚ → String)
    (A B : String) (v : ℚ) (td : Dict ℚ) :
    membership_results outName percent =
      outName ++ "__" ++ toString percent ++ ".txt" ∧
    reportContent fmt percent [] = thresholdTooHigh percent ∧
    (td ≠ [] → reportContent fmt percent td =
      reportHeader percent ++
        String.join (td.map (fun kv => reportLine kv.1 (fmt kv.2)))) ∧
    reportLine (A ++ "_vs_" ++ B) (fmt v) =
      claimLine (underscoreToSpace A) (underscoreToSpace B) (fmt v) := by
  refine ⟨rfl, by simp [reportContent], fun h => by simp [reportContent, h], ?_⟩
  rw [reportLine, claimLine, uts_append, uts_append]
  have hvs : underscoreToSpace "_vs_" = " vs " := by decide
  rw [hvs]
  simp [String.append_assoc]

theorem c8_report_format_witness :
    (([("Program_1_vs_Program_2", (1 : ℚ))] : Dict ℚ) ≠ []) ∧
    reportContent (fun _ => "1.0") 50 [("Program_1_vs_Program_2", (1 : ℚ))] =
      reportHeader 50 ++
        String.join ([("Program_1_vs_Program_2", (1 : ℚ))].map
          (fun kv => reportLine kv.1 ((fun _ => "1.0") kv.2))) :=
  ⟨by decide,
    (c8_report_format "OG_membership_results_" 50 (fun _ => "1.0") "Program_1"
      "Program_2" 1 [("Program_1_vs_Program_2", (1 : ℚ))]).2.2.1 (by decide)⟩

/-- C4: the Threshold Filter retains a pair iff its mean score is at least
`percent/100`; at 0 percent every computed pair (mean scores are
nonnegative) is retained; above 100 percent (mean scores are at most 1)
none is; and the empty result is not an error: the report writer produces
the normal "threshold too high" message for it. -/
theorem c4_threshold (percent : Int) (sd : Dict ℚ) (fmt : ℚ → String) :
    (∀ kv, kv ∈ threshold_test percent sd ↔
      kv ∈ sd ∧ (percent : ℚ) / 100 ≤ kv.2) ∧
    (percent = 0 → (∀ kv ∈ sd, 0 ≤ kv.2) → threshold_test percent sd = sd) ∧
    (100 < percent → (∀ kv ∈ sd, kv.2 ≤ 1) → threshold_test percent sd = []) ∧
    reportContent fmt percent [] = thresholdTooHigh percent := by
  refine ⟨fun kv => ?_, fun hp hpos => ?_, fun hp hle => ?_,
    by simp [reportContent]⟩
  · rw [threshold_test, List.mem_filter]
    simp
  · subst hp
    apply List.filter_eq_self.mpr
    intro kv hkv
    simpa using hpos kv hkv
  · apply List.filter_eq_nil_iff.mpr
    intro kv hkv
    simp only [decide_eq_true_eq]
    intro habs
    have h1 : (1 : ℚ) < (percent : ℚ) / 100 := by
      rw [lt_div_iff₀ (by norm_num : (0 : ℚ) < 100)]
      have hcast : ((100 : Int) : ℚ) < (percent : ℚ) := by exact_mod_cast hp
      simpa using hcast
    exact absurd (lt_of_le_of_lt (habs.trans (hle kv hkv)) h1) (lt_irrefl _)

theorem c4_threshold_witness :
    ((0 : Int) = 0) ∧ threshold_test 0 [("a", (1 : ℚ)/2)] = [("a", (1 : ℚ)/2)] :=
  ⟨rfl, (c4_threshold 0 [("a", (1 : ℚ)/2)] (fun _ => "")).2.1 rfl
    (by intro kv hkv; simp at hkv; subst hkv; norm_num)⟩

theorem extendBack_le (a b : List String) (alo blo : Nat) :
    ∀ i j, extendBack a b alo blo i j = 0 ∨
      (alo + extendBack a b alo blo i j ≤ i ∧
       blo + extendBack a b alo blo i j ≤ j) := by
  intro i
  induction i using Nat.strong_induction_on with
  | _ i ih =>
    intro j
    rw [extendBack]
    split
    · next h =>
      rcases ih (i - 1) (by omega) (j - 1) with h0 | ⟨h1, h2⟩
      · rw [h0]
        right
        omega
      · right
        omega
    · left
      rfl

theorem extendFwd_le (a b : List String) (ahi bhi i j : Nat) (k : Nat) :
    extendFwd a b ahi bhi i j k = k ∨
      (k < extendFwd a b ahi bhi i j k ∧
       i + extendFwd a b ahi bhi i j k ≤ ahi ∧
       j + extendFwd a b ahi bhi i j k ≤ bhi) := by
  suffices H : ∀ n k, ahi - (i + k) ≤ n → (extendFwd a b ahi bhi i j k = k ∨
      (k < extendFwd a b ahi bhi i j k ∧
       i + extendFwd a b ahi bhi i j k ≤ ahi ∧
       j + extendFwd a b ahi bhi i j k ≤ bhi)) from H _ k le_rfl
  intro n
  induction n with
  | zero =>
    intro k hk
    rw [extendFwd]
    split
    · next h => omega
    · left
      rfl
  | succ n ihn =>
    intro k hk
    rw [extendFwd]
    split
    · next h =>
      rcases ihn (k + 1) (by omega) with h0 | ⟨h1, h2, h3⟩
      · rw [h0]
        right
        omega
      · right
        omega
    · left
      rfl

theorem mem_jRow {b : List String} {blo bhi : Nat} {x : String} {j : Nat} :
    j ∈ jRow b blo bhi x ↔
      (isPopular b x = false ∧ j < b.length ∧ b.getD j "" = x ∧
       blo ≤ j ∧ j < bhi) := by
  unfold jRow b2j positions
  by_cases hp : isPopular b x
  · simp [hp]
  · rw [Bool.not_eq_true] at hp
    simp only [hp, Bool.false_eq_true, if_false, List.mem_filter,
      List.mem_range, Bool.and_eq_true, decide_eq_true_eq, beq_iff_eq]
    tauto

theorem bestFold_mono (f : Nat → Nat) (i : Nat) (J : List Nat)
    (bst : Nat × Nat × Nat) :
    bst.2.2 ≤ (bestFold f i J bst).2.2 := by
  induction J generalizing bst with
  | nil => exact le_rfl
  | cons j tl ih =>
    have hstep : bestFold f i (j :: tl) bst =
        bestFold f i tl
          (if bst.2.2 < f j then (i + 1 - f j, j + 1 - f j, f j) else bst) :=
      rfl
    rw [hstep]
    split
    · next h =>
      have hrec := ih (i + 1 - f j, j + 1 - f j, f j)
      exact le_trans (le_of_lt h) hrec
    · exact ih bst

theorem bestFold_inv (f : Nat → Nat) (i : Nat) (J : List Nat)
    (alo blo bhi : Nat) (bst : Nat × Nat × Nat)
    (hJ : ∀ j ∈ J, f j + alo ≤ i + 1 ∧ f j + blo ≤ j + 1 ∧ j < bhi)
    (hb : BestP alo blo bhi (i + 1) bst) :
    BestP alo blo bhi (i + 1) (bestFold f i J bst) := by
  induction J generalizing bst with
  | nil => exact hb
  | cons j tl ih =>
    have hstep : bestFold f i (j :: tl) bst =
        bestFold f i tl
          (if bst.2.2 < f j then (i + 1 - f j, j + 1 - f j, f j) else bst) :=
      rfl
    rw [hstep]
    have hj := hJ j (List.mem_cons_self j tl)
    have htl : ∀ j ∈ tl, f j + alo ≤ i + 1 ∧ f j + blo ≤ j + 1 ∧ j < bhi :=
      fun j hmem => hJ j (List.mem_cons_of_mem _ hmem)
    split
    · next h =>
      refine ih _ htl (Or.inr ⟨?_, ?_, ?_, ?_, ?_⟩) <;> simp only [] <;> omega
    · exact ih bst htl hb

theorem rowJl_inv (jl : Nat → Nat) (J : List Nat) (alo blo bhi i : Nat)
    (hrow : alo ≤ i)
    (hJ : ∀ j ∈ J, blo ≤ j ∧ j < bhi)
    (h : JlP alo blo bhi i jl) :
    JlP alo blo bhi (i + 1) (rowJl jl J) := by
  intro x
  rw [rowJl]
  by_cases hx : x ∈ J
  · rcases hJ x hx with ⟨hb1, hb2⟩
    rw [if_pos hx]
    right
    by_cases hx0 : x = 0
    · subst hx0
      have h00 : (if (0 : Nat) = 0 then (0 : Nat) else jl (0 - 1)) = 0 :=
        if_pos rfl
      rw [h00]
      omega
    · rw [if_neg hx0]
      rcases h (x - 1) with h0 | ⟨h1, h2, h3, h4⟩
      · rw [h0]
        omega
      · omega
  · rw [if_neg hx]
    left
    rfl

theorem flmFold_inv (a b : List String) (alo blo bhi : Nat) (n : Nat) :
    ∀ (s : Nat) (st : (Nat → Nat) × (Nat × Nat × Nat)),
      alo ≤ s →
      JlP alo blo bhi s st.1 → BestP alo blo bhi s st.2 →
      JlP alo blo bhi (s + n)
          ((List.range' s n).foldl (flmRow a b blo bhi) st).1 ∧
      BestP alo blo bhi (s + n)
          ((List.range' s n).foldl (flmRow a b blo bhi) st).2 := by
  induction n with
  | zero =>
    intro s st _ h1 h2
    exact ⟨h1, h2⟩
  | succ n ih =>
    intro s st hs h1 h2
    have hrange : List.range' s (n + 1) = s :: List.range' (s + 1) n := rfl
    rw [hrange, List.foldl_cons]
    have hJmem : ∀ j ∈ jRow b blo bhi (a.getD s ""), blo ≤ j ∧ j < bhi := by
      intro j hj
      rcases mem_jRow.mp hj with ⟨_, _, _, h4, h5⟩
      exact ⟨h4, h5⟩
    have hjl : JlP alo blo bhi (s + 1) (flmRow a b blo bhi st s).1 :=
      rowJl_inv st.1 _ alo blo bhi s hs hJmem h1
    have hbp : BestP alo blo bhi (s + 1) (flmRow a b blo bhi st s).2 := by
      apply bestFold_inv
      · intro j hj
        rcases hjl j with h0 | ⟨hh1, hh2, hh3, _⟩
        · simp only [flmRow, rowJl, if_pos hj] at h0
          omega
        · exact ⟨hh1, hh2, hh3⟩
      · rcases h2 with h0 | ⟨hh1, hh2, hh3, hh4, hh5⟩
        · exact Or.inl h0
        · exact Or.inr ⟨hh1, hh2, hh3, by omega, hh5⟩
    have := ih (s + 1) (flmRow a b blo bhi st s) (by omega) hjl hbp
    constructor
    · have heq : s + 1 + n = s + (n + 1) := by omega
      rw [← heq]
      exact this.1
    · have heq : s + 1 + n = s + (n + 1) := by omega
      rw [← heq]
      exact this.2

theorem flmMain_inv (a b : List String) (alo ahi blo bhi : Nat) :
    BestP alo blo bhi (alo + (ahi - alo)) (flmMain a b alo ahi blo bhi) := by
  have hinit1 : JlP alo blo bhi alo (fun _ => 0) := fun x => Or.inl rfl
  have hinit2 : BestP alo blo bhi alo (alo, blo, 0) := Or.inl rfl
  exact (flmFold_inv a b alo blo bhi (ahi - alo) alo
    (fun _ => 0, (alo, blo, 0)) le_rfl hinit1 hinit2).2

/-- The triple returned by `find_longest_match` describes a block inside
both ranges whenever it is nonempty. -/
theorem flm_bounds (a b : List String) (alo ahi blo bhi : Nat)
    (hk : (findLongestMatch a b alo ahi blo bhi).2.2 ≠ 0) :
    alo ≤ (findLongestMatch a b alo ahi blo bhi).1 ∧
    blo ≤ (findLongestMatch a b alo ahi blo bhi).2.1 ∧
    (findLongestMatch a b alo ahi blo bhi).1 +
      (findLongestMatch a b alo ahi blo bhi).2.2 ≤ ahi ∧
    (findLongestMatch a b alo ahi blo bhi).2.1 +
      (findLongestMatch a b alo ahi blo bhi).2.2 ≤ bhi := by
  set m := flmMain a b alo ahi blo bhi with hm
  set t := extendBack a b alo blo m.1 m.2.1 with ht
  have hfl : findLongestMatch a b alo ahi blo bhi =
      (m.1 - t, m.2.1 - t,
       extendFwd a b ahi bhi (m.1 - t) (m.2.1 - t) (m.2.2 + t)) := rfl
  have hB := extendBack_le a b alo blo m.1 m.2.1
  rw [← ht] at hB
  have hF := extendFwd_le a b ahi bhi (m.1 - t) (m.2.1 - t) (m.2.2 + t)
  rw [hfl] at hk ⊢
  simp only at hk ⊢
  by_cases hr : alo ≤ ahi
  · have hBest := flmMain_inv a b alo ahi blo bhi
    rw [← hm, BestP] at hBest
    rcases hBest with h0 | ⟨h1, h2, h3, h4, h5⟩
    · have hm1 : m.1 = alo := by rw [h0]
      have hm2 : m.2.1 = blo := by rw [h0]
      have hm3 : m.2.2 = 0 := by rw [h0]
      have ht0 : t = 0 := by
        rw [ht, hm1, hm2, extendBack]
        split
        · next hcontra => exact absurd hcontra.1 (lt_irrefl alo)
        · rfl
      rcases hF with hf0 | ⟨hf1, hf2, hf3⟩ <;> omega
    · rcases hB with hb0 | ⟨hb1, hb2⟩ <;>
        rcases hF with hf0 | ⟨hf1, hf2, hf3⟩ <;> omega
  · have hm0 : m = (alo, blo, 0) := by
      rw [hm, flmMain]
      have hz : ahi - alo = 0 := by omega
      rw [hz]
      rfl
    have hm1 : m.1 = alo := by rw [hm0]
    have hm2 : m.2.1 = blo := by rw [hm0]
    have hm3 : m.2.2 = 0 := by rw [hm0]
    have ht0 : t = 0 := by
      rw [ht, hm1, hm2, extendBack]
      split
      · next hcontra => exact absurd hcontra.1 (lt_irrefl alo)
      · rfl
    rcases hF with hf0 | ⟨hf1, hf2, hf3⟩ <;> omega

/-- The sum of the matching-block sizes never exceeds either range
width. -/
theorem matchesTotalF_le (a b : List String) (fuel : Nat) :
    ∀ alo ahi blo bhi,
      matchesTotalF a b fuel alo ahi blo bhi ≤ ahi - alo ∧
      matchesTotalF a b fuel alo ahi blo bhi ≤ bhi - blo := by
  induction fuel with
  | zero =>
    intro alo ahi blo bhi
    constructor <;> simp [matchesTotalF]
  | succ fuel ih =>
    intro alo ahi blo bhi
    have hdef : matchesTotalF a b (fuel + 1) alo ahi blo bhi =
        (if (findLongestMatch a b alo ahi blo bhi).2.2 = 0 then 0
         else (findLongestMatch a b alo ahi blo bhi).2.2 +
          (if alo < (findLongestMatch a b alo ahi blo bhi).1 ∧
              blo < (findLongestMatch a b alo ahi blo bhi).2.1
            then matchesTotalF a b fuel alo
              (findLongestMatch a b alo ahi blo bhi).1 blo
              (findLongestMatch a b alo ahi blo bhi).2.1 else 0) +
          (if (findLongestMatch a b alo ahi blo bhi).1 +
                (findLongestMatch a b alo ahi blo bhi).2.2 < ahi ∧
              (findLongestMatch a b alo ahi blo bhi).2.1 +
                (findLongestMatch a b alo ahi blo bhi).2.2 < bhi
            then matchesTotalF a b fuel
              ((findLongestMatch a b alo ahi blo bhi).1 +
                (findLongestMatch a b alo ahi blo bhi).2.2) ahi
              ((findLongestMatch a b alo ahi blo bhi).2.1 +
                (findLongestMatch a b alo ahi blo bhi).2.2) bhi
            else 0)) := rfl
  
    rw [hdef]
    set m := findLongestMatch a b alo ahi blo bhi with hm
    by_cases hk : m.2.2 = 0
    · simp [hk]
    · have hb := flm_bounds a b alo ahi blo bhi hk
      rw [← hm] at hb
      have hs1 := ih alo m.1 blo m.2.1
      have hs2 := ih (m.1 + m.2.2) ahi (m.2.1 + m.2.2) bhi
      rw [if_neg hk]
      constructor <;> split_ifs <;> omega

theorem rowJl_mRun (a b : List String) (blo bhi : Nat) (r : Nat) :
    rowJl (mRun a b blo bhi r) (jRow b blo bhi (a.getD (r + 1) "")) =
      mRun a b blo bhi (r + 1) := by
  funext j
  rfl

theorem rowJl_mRun_zero (a b : List String) (blo bhi : Nat) :
    rowJl (fun _ => 0) (jRow b blo bhi (a.getD 0 "")) =
      mRun a b blo bhi 0 := by
  funext j
  rw [rowJl, mRun]
  split
  · rw [ite_self]
  · rfl

theorem mRun_mem {a b : List String} {blo bhi r j : Nat}
    (h : 1 ≤ mRun a b blo bhi r j) :
    j ∈ jRow b blo bhi (a.getD r "") := by
  cases r with
  | zero =>
    rw [mRun] at h
    by_contra hmem
    rw [if_neg hmem] at h
    omega
  | succ r =>
    rw [mRun] at h
    by_contra hmem
    rw [if_neg hmem] at h
    omega

/-- A member of a row's `j` list certifies the row index itself as a
member (for `a` compared with itself over the full symmetric range). -/
theorem jmem_row_self {a : List String} {n r j : Nat}
    (hn : n = a.length) (hr : r < n)
    (hj : j ∈ jRow a 0 n (a.getD r "")) :
    r ∈ jRow a 0 n (a.getD r "") := by
  rcases mem_jRow.mp hj with ⟨hpop, _, _, _, _⟩
  exact mem_jRow.mpr ⟨hpop, by omega, rfl, Nat.zero_le r, hr⟩

/-- The `j` list of a row depends only on the element at the row; for `a`
against itself, a member `j` of row `r` has the same element, hence the
same list. -/
theorem jrow_elt_eq {a : List String} {n r j : Nat}
    (hj : j ∈ jRow a 0 n (a.getD r "")) :
    jRow a 0 n (a.getD j "") = jRow a 0 n (a.getD r "") := by
  rcases mem_jRow.mp hj with ⟨_, _, hval, _, _⟩
  rw [hval]

/-- Diagonal dominance to the right: on the symmetric full-range call a
cross run at column `j ≥ r` is no longer than the diagonal run at `r`. -/
theorem mRun_le_diag_right (a : List String) (n : Nat) (hn : n = a.length) :
    ∀ r, r < n → ∀ j, r ≤ j → mRun a a 0 n r j ≤ mRun a a 0 n r r := by
  intro r
  induction r with
  | zero =>
    intro hr j _
    rw [mRun, mRun]
    by_cases hmem : j ∈ jRow a 0 n (a.getD 0 "")
    · rw [if_pos hmem, if_pos (jmem_row_self hn hr hmem)]
    · rw [if_neg hmem]
      omega
  | succ r ih =>
    intro hr j hj
    by_cases hmem : j ∈ jRow a 0 n (a.getD (r + 1) "")
    · have hself := jmem_row_self hn hr hmem
      rw [mRun, mRun, if_pos hmem, if_pos hself]
      have hj0 : ¬(j = 0) := by omega
      rw [if_neg hj0, if_neg (Nat.succ_ne_zero r)]
      have := ih (by omega) (j - 1) (by omega)
      simp only [Nat.add_sub_cancel] at this ⊢
      omega
    · rw [mRun, if_neg hmem]
      omega

/-- Diagonal dominance to the left: on the symmetric full-range call a
cross run at column `j ≤ r` is no longer than the diagonal run at `j`. -/
theorem mRun_le_diag_left (a : List String) (n : Nat) (_hn : n = a.length) :
    ∀ r j, j ≤ r → mRun a a 0 n r j ≤ mRun a a 0 n j j := by
  intro r
  induction r with
  | zero =>
    intro j hj
    have : j = 0 := by omega
    subst this
    exact le_rfl
  | succ r ih =>
    intro j hj
    by_cases hmem : j ∈ jRow a 0 n (a.getD (r + 1) "")
    · rcases Nat.eq_or_lt_of_le hj with rfl | hlt
      · exact le_rfl
      · have hjr : j ≤ r := by omega
        cases hj0 : j with
        | zero =>
          subst hj0
          have h00 : (0 : Nat) ∈ jRow a 0 n (a.getD 0 "") := by
            rcases mem_jRow.mp hmem with ⟨hpop, hlen, hval, _, hhi⟩
            refine mem_jRow.mpr ⟨?_, hlen, rfl, le_rfl, hhi⟩
            rw [hval]
            exact hpop
          have hL : mRun a a 0 n (r + 1) 0 = 1 := by
            rw [mRun, if_pos hmem, if_pos rfl]
          have hR : mRun a a 0 n 0 0 = 1 := by
            rw [mRun, if_pos h00]
          rw [hL, hR]
        | succ j' =>
          subst hj0
          have hjj : jRow a 0 n (a.getD (j' + 1) "") =
              jRow a 0 n (a.getD (r + 1) "") := jrow_elt_eq hmem
          rw [mRun, if_pos hmem, if_neg (Nat.succ_ne_zero j')]
          conv_rhs => rw [mRun]
          rw [hjj, if_pos hmem, if_neg (Nat.succ_ne_zero j')]
          simp only [Nat.add_sub_cancel]
          have h1 := ih j' (by omega)
          omega
    · rw [mRun, if_neg hmem]
      omega

theorem range'_zero_concat (r : Nat) :
    List.range' 0 (r + 1) = List.range' 0 r ++ [r] := by
  simpa using List.range'_1_concat 0 r

/-- After processing rows `0 … r`, the `j2len` component of the main-loop
state is exactly `mRun … r`. -/
theorem flm_fold_jl (a b : List String) (blo bhi : Nat) :
    ∀ r, ((List.range' 0 (r + 1)).foldl (flmRow a b blo bhi)
      (fun _ => 0, (0, blo, 0))).1 = mRun a b blo bhi r := by
  intro r
  induction r with
  | zero => exact rowJl_mRun_zero a b blo bhi
  | succ r ih =>
    rw [range'_zero_concat, List.foldl_append]
    show rowJl
        (((List.range' 0 (r + 1)).foldl (flmRow a b blo bhi)
          (fun _ => 0, (0, blo, 0))).1)
        (jRow b blo bhi (a.getD (r + 1) "")) = mRun a b blo bhi (r + 1)
    rw [ih, rowJl_mRun]

theorem bestFold_no_update (f : Nat → Nat) (i : Nat) (L : List Nat)
    (bst : Nat × Nat × Nat) (h : ∀ j ∈ L, f j ≤ bst.2.2) :
    bestFold f i L bst = bst := by
  induction L with
  | nil => rfl
  | cons j tl ih =>
    have hstep : bestFold f i (j :: tl) bst =
        bestFold f i tl
          (if bst.2.2 < f j then (i + 1 - f j, j + 1 - f j, f j) else bst) :=
      rfl
    rw [hstep, if_neg (Nat.not_lt.mpr (h j (List.mem_cons_self j tl)))]
    exact ih (fun j hj => h j (List.mem_cons_of_mem _ hj))

theorem pairwise_lt_split :
    ∀ {L : List Nat} {r : Nat}, L.Pairwise (· < ·) → r ∈ L →
      ∃ L₁ L₂, L = L₁ ++ r :: L₂ ∧ (∀ x ∈ L₁, x < r) ∧ (∀ x ∈ L₂, r < x) := by
  intro L
  induction L with
  | nil => intro r _ hr; cases hr
  | cons x tl ih =>
    intro r hp hr
    rcases List.pairwise_cons.mp hp with ⟨hx, htl⟩
    rcases List.mem_cons.mp hr with rfl | hmem
    · exact ⟨[], tl, rfl, fun y hy => absurd hy (List.not_mem_nil y), hx⟩
    · rcases ih htl hmem with ⟨L₁, L₂, heq, h1, h2⟩
      refine ⟨x :: L₁, L₂, by rw [List.cons_append, heq], ?_, h2⟩
      intro y hy
      rcases List.mem_cons.mp hy with rfl | hy'
      · exact hx r hmem
      · exact h1 y hy'

theorem jRow_pairwise (b : List String) (blo bhi : Nat) (x : String) :
    (jRow b blo bhi x).Pairwise (· < ·) := by
  apply List.Pairwise.filter
  rw [b2j]
  split
  · exact List.Pairwise.nil
  · exact (List.pairwise_lt_range b.length).filter _

/-- Processing one row of the symmetric full-range call keeps the best
block on the diagonal, and afterwards the best size dominates every
diagonal run ending at a processed row. -/
theorem bestFold_diag_row (a : List String) (n : Nat) (hn : n = a.length)
    (r : Nat) (hr : r < n) (bst : Nat × Nat × Nat)
    (hdiag : bst.1 = bst.2.1)
    (hbs : ∀ r' < r, mRun a a 0 n r' r' ≤ bst.2.2) :
    (bestFold (mRun a a 0 n r) r (jRow a 0 n (a.getD r "")) bst).1 =
      (bestFold (mRun a a 0 n r) r (jRow a 0 n (a.getD r "")) bst).2.1 ∧
    (∀ r' < r + 1, mRun a a 0 n r' r' ≤
      (bestFold (mRun a a 0 n r) r (jRow a 0 n (a.getD r "")) bst).2.2) := by
  by_cases hJ : jRow a 0 n (a.getD r "") = []
  · rw [hJ]
    have hout : bestFold (mRun a a 0 n r) r [] bst = bst := rfl
    rw [hout]
    refine ⟨hdiag, fun r' hr' => ?_⟩
    rcases Nat.lt_succ_iff_lt_or_eq.mp hr' with h' | rfl
    · exact hbs r' h'
    · cases hv : mRun a a 0 n r' r' with
      | zero => omega
      | succ v =>
        exfalso
        have := mRun_mem (by omega : 1 ≤ mRun a a 0 n r' r')
        rw [hJ] at this
        cases this
  · rcases List.exists_mem_of_ne_nil _ hJ with ⟨j0, hj0⟩
    have hrJ : r ∈ jRow a 0 n (a.getD r "") := jmem_row_self hn hr hj0
    rcases pairwise_lt_split (jRow_pairwise a 0 n (a.getD r "")) hrJ with
      ⟨L₁, L₂, hsplit, hL₁, hL₂⟩
    rw [hsplit]
    have hfold1 : bestFold (mRun a a 0 n r) r (L₁ ++ r :: L₂) bst =
        bestFold (mRun a a 0 n r) r (r :: L₂)
          (bestFold (mRun a a 0 n r) r L₁ bst) := by
      rw [bestFold, bestFold, bestFold, List.foldl_append]
    have hskip1 : bestFold (mRun a a 0 n r) r L₁ bst = bst := by
      apply bestFold_no_update
      intro j hj
      have hjr : j < r := hL₁ j hj
      exact le_trans (mRun_le_diag_left a n hn r j (by omega))
        (hbs j (by omega))
    rw [hfold1, hskip1]
    have hstep : bestFold (mRun a a 0 n r) r (r :: L₂) bst =
        bestFold (mRun a a 0 n r) r L₂
          (if bst.2.2 < mRun a a 0 n r r then
            (r + 1 - mRun a a 0 n r r, r + 1 - mRun a a 0 n r r,
             mRun a a 0 n r r)
          else bst) := rfl
    rw [hstep]
    set bst1 := (if bst.2.2 < mRun a a 0 n r r then
      (r + 1 - mRun a a 0 n r r, r + 1 - mRun a a 0 n r r,
       mRun a a 0 n r r) else bst) with hbst1
    have hd1 : bst1.1 = bst1.2.1 := by
      rw [hbst1]
      split
      · rfl
      · exact hdiag
    have hb1 : mRun a a 0 n r r ≤ bst1.2.2 ∧ bst.2.2 ≤ bst1.2.2 := by
      rw [hbst1]
      split
      · next h => exact ⟨le_rfl, le_of_lt h⟩
      · next h => exact ⟨Nat.not_lt.mp h, le_rfl⟩
    have hskip2 : bestFold (mRun a a 0 n r) r L₂ bst1 = bst1 := by
      apply bestFold_no_update
      intro j hj
      exact le_trans (mRun_le_diag_right a n hn r hr j (le_of_lt (hL₂ j hj)))
        hb1.1
    rw [hskip2]
    refine ⟨hd1, fun r' hr' => ?_⟩
    rcases Nat.lt_succ_iff_lt_or_eq.mp hr' with h' | rfl
    · exact le_trans (hbs r' h') hb1.2
    · exact hb1.1

/-- The main loop of the symmetric full-range call ends with a diagonal
best block. -/
theorem flm_fold_diag (a : List String) (n : Nat) (hn : n = a.length) :
    ∀ r, r ≤ n →
      ((List.range' 0 r).foldl (flmRow a a 0 n)
        (fun _ => 0, (0, 0, 0))).2.1 =
      ((List.range' 0 r).foldl (flmRow a a 0 n)
        (fun _ => 0, (0, 0, 0))).2.2.1 ∧
      (∀ r' < r, mRun a a 0 n r' r' ≤
        ((List.range' 0 r).foldl (flmRow a a 0 n)
          (fun _ => 0, (0, 0, 0))).2.2.2) := by
  intro r
  induction r with
  | zero => exact fun _ => ⟨rfl, fun r' hr' => absurd hr' (Nat.not_lt_zero r')⟩
  | succ r ih =>
    intro hrn
    have hprev := ih (by omega)
    rw [range'_zero_concat, List.foldl_append]
    have hone : List.foldl (flmRow a a 0 n)
        ((List.range' 0 r).foldl (flmRow a a 0 n) (fun _ => 0, (0, 0, 0)))
        [r] =
        flmRow a a 0 n
          ((List.range' 0 r).foldl (flmRow a a 0 n) (fun _ => 0, (0, 0, 0)))
          r := rfl
    rw [hone]
    have hrow : (flmRow a a 0 n
        ((List.range' 0 r).foldl (flmRow a a 0 n) (fun _ => 0, (0, 0, 0)))
        r) =
        (rowJl (((List.range' 0 r).foldl (flmRow a a 0 n)
           (fun _ => 0, (0, 0, 0))).1) (jRow a 0 n (a.getD r "")),
         bestFold (rowJl (((List.range' 0 r).foldl (flmRow a a 0 n)
           (fun _ => 0, (0, 0, 0))).1) (jRow a 0 n (a.getD r "")))
           r (jRow a 0 n (a.getD r ""))
           (((List.range' 0 r).foldl (flmRow a a 0 n)
             (fun _ => 0, (0, 0, 0))).2)) := rfl
    rw [hrow]
    have hjl : rowJl (((List.range' 0 r).foldl (flmRow a a 0 n)
        (fun _ => 0, (0, 0, 0))).1) (jRow a 0 n (a.getD r "")) =
        mRun a a 0 n r := by
      cases r with
      | zero => exact rowJl_mRun_zero a a 0 n
      | succ r' =>
        rw [flm_fold_jl a a 0 n r']
        exact rowJl_mRun a a 0 n r'
    dsimp only
    rw [hjl]
    exact bestFold_diag_row a n hn r (by omega) _ hprev.1 hprev.2

theorem extendBack_diag (a : List String) :
    ∀ i, extendBack a a 0 0 i i = i := by
  intro i
  induction i with
  | zero =>
    rw [extendBack]
    split
    · next h => omega
    · rfl
  | succ i ih =>
    rw [extendBack]
    split
    · next h =>
      simp only [Nat.add_sub_cancel]
      rw [ih]
    · next h =>
      exfalso
      exact h ⟨Nat.succ_pos i, Nat.succ_pos i, by simp⟩

theorem extendFwd_diag (a : List String) (n : Nat) :
    ∀ k, k ≤ n → extendFwd a a n n 0 0 k = n := by
  suffices H : ∀ d k, n - k ≤ d → k ≤ n → extendFwd a a n n 0 0 k = n from
    fun k h => H (n - k) k le_rfl h
  intro d
  induction d with
  | zero =>
    intro k h1 h2
    rw [extendFwd]
    split
    · next h => omega
    · omega
  | succ d ihd =>
    intro k h1 h2
    by_cases hkn : k < n
    · rw [extendFwd]
      split
      · next h => exact ihd (k + 1) (by omega) (by omega)
      · next h =>
        exfalso
        exact h ⟨by omega, by omega, by simp⟩
    · rw [extendFwd]
      split
      · next h => omega
      · omega

/-- Running `find_longest_match` on the full symmetric range of a list against
itself returns the whole range: the main loop's best block is diagonal, and
the extension loops stretch it to everything. -/
theorem flm_identity (a : List String) :
    findLongestMatch a a 0 a.length 0 a.length = (0, 0, a.length) := by
  have hmm : flmMain a a 0 a.length 0 a.length =
      ((List.range' 0 a.length).foldl (flmRow a a 0 a.length)
        (fun _ => 0, (0, 0, 0))).2 := rfl
  have hdm : (flmMain a a 0 a.length 0 a.length).1 =
      (flmMain a a 0 a.length 0 a.length).2.1 := by
    rw [hmm]
    exact (flm_fold_diag a a.length rfl a.length le_rfl).1
  have hbp := flmMain_inv a a 0 a.length 0 a.length
  rw [BestP] at hbp
  have hfl : findLongestMatch a a 0 a.length 0 a.length =
      ((flmMain a a 0 a.length 0 a.length).1 -
         extendBack a a 0 0 (flmMain a a 0 a.length 0 a.length).1
           (flmMain a a 0 a.length 0 a.length).2.1,
       (flmMain a a 0 a.length 0 a.length).2.1 -
         extendBack a a 0 0 (flmMain a a 0 a.length 0 a.length).1
           (flmMain a a 0 a.length 0 a.length).2.1,
       extendFwd a a a.length a.length
         ((flmMain a a 0 a.length 0 a.length).1 -
           extendBack a a 0 0 (flmMain a a 0 a.length 0 a.length).1
             (flmMain a a 0 a.length 0 a.length).2.1)
         ((flmMain a a 0 a.length 0 a.length).2.1 -
           extendBack a a 0 0 (flmMain a a 0 a.length 0 a.length).1
             (flmMain a a 0 a.length 0 a.length).2.1)
         ((flmMain a a 0 a.length 0 a.length).2.2 +
           extendBack a a 0 0 (flmMain a a 0 a.length 0 a.length).1
             (flmMain a a 0 a.length 0 a.length).2.1)) := rfl
  rw [hfl, ← hdm, extendBack_diag a, Nat.sub_self]
  have hk : (flmMain a a 0 a.length 0 a.length).2.2 +
      (flmMain a a 0 a.length 0 a.length).1 ≤ a.length := by
    rcases hbp with h0 | ⟨h1, h2, h3, h4, h5⟩
    · have e1 : (flmMain a a 0 a.length 0 a.length).1 = 0 := by rw [h0]
      have e2 : (flmMain a a 0 a.length 0 a.length).2.2 = 0 := by rw [h0]
      omega
    · omega
  rw [extendFwd_diag a a.length _ hk]

theorem seqMatches_le (a b : List String) :
    seqMatches a b ≤ a.length ∧ seqMatches a b ≤ b.length := by
  have h := matchesTotalF_le a b (a.length + 1) 0 a.length 0 b.length
  simpa using h

theorem smRatio_nonneg (a b : List String) : 0 ≤ simScore a b := by
  rw [simScore]
  split
  · norm_num
  · positivity

theorem smRatio_le_one (a b : List String) : simScore a b ≤ 1 := by
  rw [simScore]
  split
  · exact le_rfl
  · next h =>
    have hpos : (0 : ℚ) < (a.length : ℚ) + (b.length : ℚ) := by
      have : 0 < a.length + b.length := Nat.pos_of_ne_zero h
      exact_mod_cast this
    rw [div_le_one hpos]
    have hle := seqMatches_le a b
    have hnat : 2 * seqMatches a b ≤ a.length + b.length := by omega
    exact_mod_cast hnat

theorem seqMatches_self (a : List String) : seqMatches a a = a.length := by
  rw [seqMatches]
  have hdef : matchesTotalF a a (a.length + 1) 0 a.length 0 a.length =
      (if (findLongestMatch a a 0 a.length 0 a.length).2.2 = 0 then 0
       else (findLongestMatch a a 0 a.length 0 a.length).2.2 +
        (if 0 < (findLongestMatch a a 0 a.length 0 a.length).1 ∧
            0 < (findLongestMatch a a 0 a.length 0 a.length).2.1
          then matchesTotalF a a a.length 0
            (findLongestMatch a a 0 a.length 0 a.length).1 0
            (findLongestMatch a a 0 a.length 0 a.length).2.1 else 0) +
        (if (findLongestMatch a a 0 a.length 0 a.length).1 +
              (findLongestMatch a a 0 a.length 0 a.length).2.2 < a.length ∧
            (findLongestMatch a a 0 a.length 0 a.length).2.1 +
              (findLongestMatch a a 0 a.length 0 a.length).2.2 < a.length
          then matchesTotalF a a a.length
            ((findLongestMatch a a 0 a.length 0 a.length).1 +
              (findLongestMatch a a 0 a.length 0 a.length).2.2) a.length
            ((findLongestMatch a a 0 a.length 0 a.length).2.1 +
              (findLongestMatch a a 0 a.length 0 a.length).2.2) a.length
          else 0)) := rfl
  rw [hdef, flm_identity a]
  dsimp only
  by_cases h0 : a.length = 0
  · rw [if_pos h0]
    omega
  · rw [if_neg h0, if_neg (by omega), if_neg (by omega)]
    omega

theorem smRatio_self (a : List String) : simScore a a = 1 := by
  rw [simScore]
  split
  · rfl
  · next h =>
    rw [seqMatches_self]
    have hl : a.length ≠ 0 := by omega
    have hne : (a.length : ℚ) ≠ 0 := by exact_mod_cast hl
    field_simp
    ring

/-- C3: the similarity score computed by the Pairwise Comparator
(`difflib.SequenceMatcher(None, ·, ·).ratio()`) equals `2·M/T` where `M` is
the total length of the non-overlapping matching blocks found by the
longest-common-block recursion and `T` the summed length of both ordered
member lists (`M` never exceeds either length, so the blocks are a valid
matching); the score lies in `[0, 1]`; and for two identical ordered
member lists — in particular for every protein id shared by two programs
whose member lists coincide — the appended ratio is exactly `1.0`. -/
theorem c3_similarity_score (a b : List String) :
    simScore a b = (if a.length + b.length = 0 then 1
      else 2 * (seqMatches a b : ℚ) / ((a.length : ℚ) + (b.length : ℚ))) ∧
    seqMatches a b ≤ a.length ∧ seqMatches a b ≤ b.length ∧
    0 ≤ simScore a b ∧ simScore a b ≤ 1 ∧
    (a = b → simScore a b = 1) :=
  ⟨rfl, (seqMatches_le a b).1, (seqMatches_le a b).2, smRatio_nonneg a b,
   smRatio_le_one a b, fun h => h ▸ smRatio_self a⟩

theorem c3_similarity_score_witness :
    (["p1", "p2", "p3"] : List String) = ["p1", "p2", "p3"] ∧
    simScore ["p1", "p2", "p3"] ["p1", "p2", "p3"] = 1 :=
  ⟨rfl,
   (c3_similarity_score ["p1", "p2", "p3"] ["p1", "p2", "p3"]).2.2.2.2.2 rfl⟩

theorem cmpStep_isSome_iff (r : List String) (i j : Nat) (dA : Mapping)
    (iA : Nat) (dB : Mapping) (iB : Nat) {si sj sa sb : String}
    (hi : r.get? i = some si) (hj : r.get? j = some sj)
    (ha : r.get? iA = some sa) (hb : r.get? iB = some sb) :
    (cmpStep r i j dA iA dB iB).isSome ↔
      (si ≠ sentinel ∧ sj ≠ sentinel →
        (dictGet dA sa).isSome ∧ (dictGet dB sb).isSome) := by
  simp only [cmpStep, pairCond, hi, hj, ha, hb, Option.bind_eq_bind,
    Option.some_bind]
  by_cases hsi : si = sentinel
  · simp [hsi]
  · rw [if_neg hsi]
    by_cases hsj : sj = sentinel
    · simp [hsj]
    · simp only [hsj, ne_eq, not_false_eq_true, decide_True, if_true,
        Option.some_bind]
      cases hA : dictGet dA sa <;> cases hB : dictGet dB sb <;>
        simp [hA, hB, hsi, hsj]

theorem recordStep_isSome_aux (d1 d2 d3 d4 : Mapping) (acc : Comparisons)
    (k : String) (r : List String) :
    (recordStep d1 d2 d3 d4 acc (k, r)).isSome ↔
      ((cmpStep r 0 1 d1 0 d2 1).isSome ∧ (cmpStep r 0 2 d1 0 d3 2).isSome ∧
       (cmpStep r 0 3 d1 0 d4 3).isSome ∧ (cmpStep r 1 2 d3 2 d2 1).isSome ∧
       (cmpStep r 1 3 d4 3 d2 1).isSome ∧
       (cmpStep r 2 3 d3 2 d4 3).isSome) := by
  rw [recordStep]
  cases cmpStep r 0 1 d1 0 d2 1 <;>
    cases cmpStep r 0 2 d1 0 d3 2 <;>
      cases cmpStep r 0 3 d1 0 d4 3 <;>
        cases cmpStep r 1 2 d3 2 d2 1 <;>
          cases cmpStep r 1 3 d4 3 d2 1 <;>
            cases cmpStep r 2 3 d3 2 d4 3 <;> simp

set_option maxHeartbeats 1000000 in
theorem recordStep_isSome (d1 d2 d3 d4 : Mapping) (acc : Comparisons)
    (k : String) (s0 s1 s2 s3 : String) :
    (recordStep d1 d2 d3 d4 acc (k, [s0, s1, s2, s3])).isSome ↔
      ((s0 ≠ sentinel ∧ s1 ≠ sentinel →
        (dictGet d1 s0).isSome ∧ (dictGet d2 s1).isSome) ∧
       (s0 ≠ sentinel ∧ s2 ≠ sentinel →
        (dictGet d1 s0).isSome ∧ (dictGet d3 s2).isSome) ∧
       (s0 ≠ sentinel ∧ s3 ≠ sentinel →
        (dictGet d1 s0).isSome ∧ (dictGet d4 s3).isSome) ∧
       (s1 ≠ sentinel ∧ s2 ≠ sentinel →
        (dictGet d2 s1).isSome ∧ (dictGet d3 s2).isSome) ∧
       (s1 ≠ sentinel ∧ s3 ≠ sentinel →
        (dictGet d2 s1).isSome ∧ (dictGet d4 s3).isSome) ∧
       (s2 ≠ sentinel ∧ s3 ≠ sentinel →
        (dictGet d3 s2).isSome ∧ (dictGet d4 s3).isSome)) := by
  rw [recordStep_isSome_aux]
  rw [cmpStep_isSome_iff [s0, s1, s2, s3] 0 1 d1 0 d2 1 rfl rfl rfl rfl,
      cmpStep_isSome_iff [s0, s1, s2, s3] 0 2 d1 0 d3 2 rfl rfl rfl rfl,
      cmpStep_isSome_iff [s0, s1, s2, s3] 0 3 d1 0 d4 3 rfl rfl rfl rfl,
      cmpStep_isSome_iff [s0, s1, s2, s3] 1 2 d3 2 d2 1 rfl rfl rfl rfl,
      cmpStep_isSome_iff [s0, s1, s2, s3] 1 3 d4 3 d2 1 rfl rfl rfl rfl,
      cmpStep_isSome_iff [s0, s1, s2, s3] 2 3 d3 2 d4 3 rfl rfl rfl rfl]
  exact and_congr Iff.rfl (and_congr Iff.rfl (and_congr Iff.rfl
    (and_congr (imp_congr Iff.rfl and_comm)
      (and_congr (imp_congr Iff.rfl and_comm) Iff.rfl))))

/-- C10 counterexample: a filtered record whose sole non-sentinel slot
references a cluster id absent from its program's mapping does NOT raise a
`KeyError` — no pair of its slots is comparable, so no lookup happens and
the comparator completes normally with empty score lists. -/
theorem c10_counterexample :
    membership_test [("p", ["X", "-", "-", "-"])] [] [] [] [] =
      some ⟨[], [], [], [], [], []⟩ ∧
    "X" ≠ sentinel ∧ dictGet ([] : Mapping) "X" = none := by
  refine ⟨by decide, by decide, rfl⟩

theorem membershipFold_isSome (d1 d2 d3 d4 : Mapping) :
    ∀ (filt : Dict (List String)),
      (∀ kv ∈ filt, ∃ s0 s1 s2 s3, kv.2 = [s0, s1, s2, s3]) →
      ∀ acc, (membershipFold d1 d2 d3 d4 acc filt).isSome ↔
        comparatorPre filt d1 d2 d3 d4 := by
  intro filt
  induction filt with
  | nil =>
    intro _ acc
    simp only [membershipFold, Option.isSome_some, true_iff]
    intro kv hkv
    cases hkv
  | cons kv tl ih =>
    intro hlen acc
    obtain ⟨s0, s1, s2, s3, hr⟩ := hlen kv (List.mem_cons_self kv tl)
    have hlentl : ∀ kv' ∈ tl, ∃ s0 s1 s2 s3, kv'.2 = [s0, s1, s2, s3] :=
      fun kv' h => hlen kv' (List.mem_cons_of_mem _ h)
    rcases kv with ⟨k, r⟩
    simp only at hr
    subst hr
    have hfold : membershipFold d1 d2 d3 d4 acc
        ((k, [s0, s1, s2, s3]) :: tl) =
        (recordStep d1 d2 d3 d4 acc (k, [s0, s1, s2, s3])).bind
          (fun a => membershipFold d1 d2 d3 d4 a tl) := rfl
    rw [hfold]
    cases hrs : recordStep d1 d2 d3 d4 acc (k, [s0, s1, s2, s3]) with
    | none =>
      constructor
      · intro habs
        simp at habs
      · intro hpre
        exfalso
        have hk := hpre (k, [s0, s1, s2, s3])
          (List.mem_cons_self _ _) s0 s1 s2 s3 rfl
        have hsome := (recordStep_isSome d1 d2 d3 d4 acc k s0 s1 s2 s3).mpr hk
        rw [hrs] at hsome
        simp at hsome
    | some a =>
      have hks := (recordStep_isSome d1 d2 d3 d4 acc k s0 s1 s2 s3).mp
        (by rw [hrs]; rfl)
      constructor
      · intro h
        intro kv' hkv' t0 t1 t2 t3 ht
        rcases List.mem_cons.mp hkv' with rfl | hmem
        · simp only [List.cons.injEq, and_true] at ht
          rcases ht with ⟨rfl, rfl, rfl, rfl⟩
          exact hks
        · exact (ih hlentl a).mp (by simpa using h) kv' hmem t0 t1 t2 t3 ht
      · intro hpre
        have hpretl : comparatorPre tl d1 d2 d3 d4 :=
          fun kv' h => hpre kv' (List.mem_cons_of_mem _ h)
        simpa using (ih hlentl a).mpr hpretl

/-- C10 (amended): for a filtered index of four-slot records, the Pairwise
Comparator completes if and only if every slot participating in a
comparable pair (both slots of the pair non-sentinel) is a key of the
corresponding program's cluster mapping; when some such lookup fails the
comparator raises an uncaught `KeyError` (`none`) and no score-list output
is produced.  Records whose dangling cluster ids never co-occur with
another non-sentinel slot do not trigger the error. -/
theorem c10_comparator_totality (filt : Dict (List String))
    (d1 d2 d3 d4 : Mapping)
    (hlen : ∀ kv ∈ filt, ∃ s0 s1 s2 s3, kv.2 = [s0, s1, s2, s3]) :
    (membership_test filt d1 d2 d3 d4).isSome ↔
      comparatorPre filt d1 d2 d3 d4 :=
  membershipFold_isSome d1 d2 d3 d4 filt hlen _

theorem c10_comparator_totality_witness :
    (∀ kv ∈ ([("p", ["A", "B", "-", "-"])] : Dict (List String)),
      ∃ s0 s1 s2 s3, kv.2 = [s0, s1, s2, s3]) ∧
    ((membership_test [("p", ["A", "B", "-", "-"])]
        [("A", ["p"])] [("B", ["p"])] [] []).isSome ↔
      comparatorPre [("p", ["A", "B", "-", "-"])]
        [("A", ["p"])] [("B", ["p"])] [] []) :=
  ⟨by
    intro kv hkv
    rcases List.mem_singleton.mp hkv with rfl
    exact ⟨"A", "B", "-", "-", rfl⟩,
   c10_comparator_totality [("p", ["A", "B", "-", "-"])]
     [("A", ["p"])] [("B", ["p"])] [] []
     (by
       intro kv hkv
       rcases List.mem_singleton.mp hkv with rfl
       exact ⟨"A", "B", "-", "-", rfl⟩)⟩

theorem decodeStrings_encode (l : List String) :
    decodeStrings (l.map Json.str) = some l := by
  induction l with
  | nil => rfl
  | cons s tl ih => rw [List.map_cons, decodeStrings, ih]; rfl

theorem decodeEntries_encode (d : Dict (List String)) :
    decodeEntries
      (d.map (fun kv => (kv.1, Json.arr (kv.2.map Json.str)))) = some d := by
  induction d with
  | nil => rfl
  | cons kv tl ih =>
    rw [List.map_cons]
    show decodeEntries ((kv.1, Json.arr (kv.2.map Json.str)) :: _) = _
    rw [decodeEntries, decodeStrings_encode, ih]
    rfl

theorem decode_encodeProtDict (d : Dict (List String)) :
    decodeProtDict (encodeProtDict d) = some d := by
  rw [encodeProtDict, decodeProtDict]
  exact decodeEntries_encode d

/-- C6: serializing the membership index at checkpoint 2 and deserializing
it yields a structurally identical protein-id → four-slot mapping, and
resuming from checkpoint 2 on that file together with the same four
cluster mappings produces filtered, compared, and aggregated results
identical to those computed by a fresh full run. -/
theorem c6_checkpoint2_roundtrip (names : List String)
    (m1 m2 m3 m4 : Mapping) :
    decodeProtDict (encodeProtDict (create_prot_dict m1 m2 m3 m4)) =
      some (create_prot_dict m1 m2 m3 m4) ∧
    checkpoint2_resume names (encodeProtDict (create_prot_dict m1 m2 m3 m4))
        m1 m2 m3 m4 =
      some (downstream2 names (create_prot_dict m1 m2 m3 m4)
        m1 m2 m3 m4) := by
  refine ⟨decode_encodeProtDict _, ?_⟩
  rw [checkpoint2_resume, decode_encodeProtDict]
  rfl

end OgMembership
